import Mathlib

/-!
Shallow embedding of `src/binary/legacy_memory_region.rs` from the
`devsnek/bootloader` repository.

Modelling conventions:
- Physical addresses and byte lengths (`u64` in the source) are `Nat`.
  The claims under study never exercise `u64` overflow; `PhysAddr`
  arithmetic in the source panics on overflow rather than wrapping.
- A `PhysFrame<Size4KiB>` is represented by its frame number (a `Nat`);
  `PhysFrame::containing_address(a)` is `a / 4096` and
  `PhysFrame::start_address()` is multiplication by `4096`.  Comparison
  of frames by start address coincides with comparison of frame numbers.
- The descriptor iterator `I : ExactSizeIterator + Clone` is a
  `List MemDesc`; cloning is sharing the list, `next()` is pattern
  matching on the head, `len()` is `List.length`.
- Rust `Option` is Lean `Option`; a panic (`expect` / `unwrap` on the
  capacity check in `construct_memory_map`) is modelled as `none`.
-/

namespace Bootloader

/-- Memory descriptor: the data the `LegacyMemoryRegion` trait exposes
(start address, byte length, usable flag).  `set_start` is record update
of `start`. -/
structure MemDesc where
  start : Nat
  len : Nat
  usable : Bool
deriving Repr, DecidableEq

/-- Modelled from the spec: the output region kind (`MemoryRegionKind` in
`crate::memory_map`, which is outside the given source tree): `Usable`
(free for the next stage), `Bootloader` (consumed during boot),
`Reserved` (firmware marked unusable). -/
inductive MemoryRegionKind where
  | Usable
  | Bootloader
  | Reserved
deriving Repr, DecidableEq

/-- Modelled from the spec: the output region record (`MemoryRegion` in
`crate::memory_map`): half-open byte range `[start, stop)` plus a kind.
The source names the second field `end`, which is a Lean keyword. -/
structure MemoryRegion where
  start : Nat
  stop : Nat
  kind : MemoryRegionKind
deriving Repr, DecidableEq

/-- PhysFrame::containing_address for Size4KiB frames, as a frame number. -/
def containingFrame (addr : Nat) : Nat := addr / 4096

/-- PhysFrame::start_address for Size4KiB frames. -/
def frameStartAddr (frame : Nat) : Nat := frame * 4096

/-- State of `LegacyFrameAllocator<I, D>`: the retained original
descriptor sequence, the live iterator, the cached current descriptor,
and the cursor frame. -/
structure LegacyFrameAllocator where
  original : List MemDesc
  memory_map : List MemDesc
  current_descriptor : Option MemDesc
  next_frame : Nat
deriving Repr, DecidableEq

/-- LegacyFrameAllocator::new_starting_at. -/
def new_starting_at (frame : Nat) (memoryMap : List MemDesc) : LegacyFrameAllocator :=
  { original := memoryMap
    memory_map := memoryMap
    current_descriptor := none
    next_frame := frame }

/-- LegacyFrameAllocator::new: skips frame 0, starting at the frame
containing address 0x1000. -/
def new (memoryMap : List MemDesc) : LegacyFrameAllocator :=
  new_starting_at (containingFrame 0x1000) memoryMap

/-- LegacyFrameAllocator::len. -/
def LegacyFrameAllocator.len (s : LegacyFrameAllocator) : Nat :=
  s.original.length

/-- allocate_frame_from_descriptor, with the cursor passed explicitly:
given the current `next_frame` and a descriptor, returns the optional
allocated frame and the new `next_frame`.  The cursor is first snapped
forward to the descriptor start frame if smaller; a frame is produced
only while strictly below the descriptor's inclusive end frame. -/
def allocate_frame_from_descriptor (next : Nat) (d : MemDesc) : Option Nat × Nat :=
  let start_frame := containingFrame d.start
  let end_frame := containingFrame (d.start + d.len - 1)
  let next := max next start_frame
  if next < end_frame then (some next, next + 1) else (none, next)

/-- Result of the descriptor-scanning loop in allocate_frame. -/
structure FindResult where
  result : Option Nat
  next : Nat
  current : Option MemDesc
  remaining : List MemDesc
deriving Repr, DecidableEq

/-- The `while let Some(descriptor) = self.memory_map.next()` loop of
allocate_frame: skip unusable descriptors, try each usable one, stop at
the first that yields a frame (caching it as current descriptor). -/
def findFrame (next : Nat) : List MemDesc → FindResult
  | [] => ⟨none, next, none, []⟩
  | d :: rest =>
    if d.usable then
      match allocate_frame_from_descriptor next d with
      | (some f, n) => ⟨some f, n, some d, rest⟩
      | (none, n) => findFrame n rest
    else
      findFrame next rest

/-- FrameAllocator::allocate_frame: first retry the cached current
descriptor; on its exhaustion clear it and scan the remaining
descriptors. -/
def allocate_frame (s : LegacyFrameAllocator) : Option Nat × LegacyFrameAllocator :=
  match s.current_descriptor with
  | some d =>
    match allocate_frame_from_descriptor s.next_frame d with
    | (some f, n) => (some f, { s with next_frame := n })
    | (none, n) =>
      let r := findFrame n s.memory_map
      (r.result, { s with next_frame := r.next, current_descriptor := r.current,
                          memory_map := r.remaining })
  | none =>
    let r := findFrame s.next_frame s.memory_map
    (r.result, { s with next_frame := r.next, current_descriptor := r.current,
                        memory_map := r.remaining })

/-- Iterate allocate_frame n times, keeping the state. -/
def allocSteps : Nat → LegacyFrameAllocator → LegacyFrameAllocator
  | 0, s => s
  | n + 1, s => allocSteps n (allocate_frame s).2

/-- Results of the first n allocate_frame calls. -/
def allocResults : Nat → LegacyFrameAllocator → List (Option Nat)
  | 0, _ => []
  | n + 1, s => (allocate_frame s).1 :: allocResults n (allocate_frame s).2

/-- The regions construct_memory_map derives from one descriptor given
the final cursor address `next_free`: a usable descriptor wholly below
the cursor is Bootloader, wholly at or above it is Usable, straddling it
is split into a Bootloader prefix and a Usable suffix; an unusable
descriptor is Reserved. -/
def regionsForDescriptor (nextFree : Nat) (d : MemDesc) : List MemoryRegion :=
  if d.usable then
    if d.start + d.len ≤ nextFree then
      [⟨d.start, d.start + d.len, MemoryRegionKind.Bootloader⟩]
    else if nextFree ≤ d.start then
      [⟨d.start, d.start + d.len, MemoryRegionKind.Usable⟩]
    else
      [⟨d.start, nextFree, MemoryRegionKind.Bootloader⟩,
       ⟨nextFree, d.start + d.len, MemoryRegionKind.Usable⟩]
  else
    [⟨d.start, d.start + d.len, MemoryRegionKind.Reserved⟩]

/-- The full region list construct_memory_map produces (capacity aside):
the per-descriptor regions in original descriptor order. -/
def regionsOf (nextFree : Nat) : List MemDesc → List MemoryRegion
  | [] => []
  | d :: ds => regionsForDescriptor nextFree d ++ regionsOf nextFree ds

/-- add_region: write one region into the output buffer if a slot
remains, else fail (the callers panic on failure). -/
def add_region (r : MemoryRegion) (buf : List MemoryRegion) (capacity : Nat) :
    Option (List MemoryRegion) :=
  if buf.length < capacity then some (buf ++ [r]) else none

/-- Append a block of regions through add_region, propagating failure. -/
def addRegions (capacity : Nat) : List MemoryRegion → List MemoryRegion →
    Option (List MemoryRegion)
  | [], buf => some buf
  | r :: rs, buf =>
    match add_region r buf capacity with
    | some buf' => addRegions capacity rs buf'
    | none => none

/-- The descriptor loop of construct_memory_map over a buffer of the
given capacity. -/
def constructGo (nextFree : Nat) (capacity : Nat) : List MemDesc → List MemoryRegion →
    Option (List MemoryRegion)
  | [], buf => some buf
  | d :: ds, buf =>
    match addRegions capacity (regionsForDescriptor nextFree d) buf with
    | some buf' => constructGo nextFree capacity ds buf'
    | none => none

/-- construct_memory_map: consume the allocator, walking the original
descriptor sequence with the final cursor address, writing classified
regions into a buffer of `capacity` slots; `none` models the panic on
buffer overflow. -/
def construct_memory_map (s : LegacyFrameAllocator) (capacity : Nat) :
    Option (List MemoryRegion) :=
  constructGo (frameStartAddr s.next_frame) capacity s.original []

/-- Byte membership in an output region. -/
def inRegion (r : MemoryRegion) (b : Nat) : Prop := r.start ≤ b ∧ b < r.stop

instance (r : MemoryRegion) (b : Nat) : Decidable (inRegion r b) := by
  unfold inRegion; infer_instance

/-- A byte is covered by some region of a region list. -/
def coveredBy (rs : List MemoryRegion) (b : Nat) : Prop := ∃ r ∈ rs, inRegion r b

/-- Byte membership in a descriptor's range. -/
def inDesc (d : MemDesc) (b : Nat) : Prop := d.start ≤ b ∧ b < d.start + d.len

instance (d : MemDesc) (b : Nat) : Decidable (inDesc d b) := by
  unfold inDesc; infer_instance

/-- A byte is covered by some descriptor of a descriptor list. -/
def coveredByDescs (ds : List MemDesc) (b : Nat) : Prop := ∃ d ∈ ds, inDesc d b

/-- Two output regions share no byte (interval characterization). -/
def regDisj (r1 r2 : MemoryRegion) : Prop :=
  min r1.stop r2.stop ≤ max r1.start r2.start

instance (r1 r2 : MemoryRegion) : Decidable (regDisj r1 r2) := by
  unfold regDisj; infer_instance

/-- Two descriptors share no byte (interval characterization). -/
def descDisj (d1 d2 : MemDesc) : Prop :=
  min (d1.start + d1.len) (d2.start + d2.len) ≤ max d1.start d2.start

instance (d1 d2 : MemDesc) : Decidable (descDisj d1 d2) := by
  unfold descDisj; infer_instance

theorem afd_eq (next : Nat) (d : MemDesc) :
    allocate_frame_from_descriptor next d =
      if max next (containingFrame d.start) < containingFrame (d.start + d.len - 1) then
        (some (max next (containingFrame d.start)), max next (containingFrame d.start) + 1)
      else
        (none, max next (containingFrame d.start)) := by
  simp only [allocate_frame_from_descriptor]

theorem afd_next_le (next : Nat) (d : MemDesc) :
    next ≤ (allocate_frame_from_descriptor next d).2 := by
  rw [afd_eq]
  split
  · show next ≤ max next (containingFrame d.start) + 1
    omega
  · show next ≤ max next (containingFrame d.start)
    omega

theorem afd_some {next : Nat} {d : MemDesc} {f : Nat}
    (h : (allocate_frame_from_descriptor next d).1 = some f) :
    next ≤ f ∧ (allocate_frame_from_descriptor next d).2 = f + 1 ∧
      containingFrame d.start ≤ f ∧ f < containingFrame (d.start + d.len - 1) := by
  rw [afd_eq] at h ⊢
  split at h
  · rename_i hlt
    simp only [if_pos hlt]
    simp only [Prod.fst] at h
    injection h with h
    subst h
    refine ⟨le_max_left _ _, rfl, le_max_right _ _, hlt⟩
  · simp at h

theorem ff_next_le (next : Nat) (l : List MemDesc) :
    next ≤ (findFrame next l).next := by
  induction l generalizing next with
  | nil => simp [findFrame]
  | cons d rest ih =>
    by_cases hu : d.usable
    · rcases hafd : allocate_frame_from_descriptor next d with ⟨r, n⟩
      have hle := afd_next_le next d
      rw [hafd] at hle
      cases r with
      | some f => simp [findFrame, hu, hafd]; exact hle
      | none =>
        simp only [findFrame, hu, if_true, hafd]
        exact le_trans hle (ih n)
    · simp only [findFrame, hu, if_false]
      exact ih next

theorem ff_some {next : Nat} {l : List MemDesc} {f : Nat}
    (h : (findFrame next l).result = some f) :
    next ≤ f ∧ (findFrame next l).next = f + 1 ∧
      ∃ d ∈ l, d.usable = true ∧ (findFrame next l).current = some d ∧
        containingFrame d.start ≤ f ∧ f < containingFrame (d.start + d.len - 1) := by
  induction l generalizing next with
  | nil => simp [findFrame] at h
  | cons d rest ih =>
    by_cases hu : d.usable
    · rcases hafd : allocate_frame_from_descriptor next d with ⟨r, n⟩
      cases r with
      | some g =>
        simp only [findFrame, hu, if_true, hafd] at h ⊢
        cases h
        have hs := afd_some (show (allocate_frame_from_descriptor next d).1 = some f by rw [hafd])
        rw [hafd] at hs
        exact ⟨hs.1, hs.2.1, d, List.mem_cons_self d rest, hu, rfl, hs.2.2.1, hs.2.2.2⟩
      | none =>
        simp only [findFrame, hu, if_true, hafd] at h ⊢
        have hle := afd_next_le next d
        rw [hafd] at hle
        obtain ⟨h1, h2, d', hd', hu', hc', hb1, hb2⟩ := ih h
        exact ⟨le_trans hle h1, h2, d', List.mem_cons_of_mem d hd', hu', hc', hb1, hb2⟩
    · simp only [findFrame, hu, if_false] at h ⊢
      obtain ⟨h1, h2, d', hd', rest'⟩ := ih h
      exact ⟨h1, h2, d', List.mem_cons_of_mem d hd', rest'⟩

theorem ff_none {next : Nat} {l : List MemDesc}
    (h : (findFrame next l).result = none) :
    (findFrame next l).current = none ∧ (findFrame next l).remaining = [] := by
  induction l generalizing next with
  | nil => simp [findFrame]
  | cons d rest ih =>
    by_cases hu : d.usable
    · rcases hafd : allocate_frame_from_descriptor next d with ⟨r, n⟩
      cases r with
      | some g => simp [findFrame, hu, hafd] at h
      | none =>
        simp only [findFrame, hu, if_true, hafd] at h ⊢
        exact ih h
    · simp only [findFrame, hu, if_false] at h ⊢
      exact ih h

theorem ff_skip {d : MemDesc} (next : Nat) (rest : List MemDesc)
    (hu : d.usable = false) :
    findFrame next (d :: rest) = findFrame next rest := by
  simp [findFrame, hu]

theorem ff_remaining_subset (next : Nat) (l : List MemDesc) :
    ∀ d ∈ (findFrame next l).remaining, d ∈ l := by
  induction l generalizing next with
  | nil => simp [findFrame]
  | cons d rest ih =>
    by_cases hu : d.usable
    · rcases hafd : allocate_frame_from_descriptor next d with ⟨r, n⟩
      cases r with
      | some g =>
        simp only [findFrame, hu, if_true, hafd]
        intro x hx
        exact List.mem_cons_of_mem _ hx
      | none =>
        simp only [findFrame, hu, if_true, hafd]
        intro x hx
        exact List.mem_cons_of_mem _ (ih n x hx)
    · simp only [findFrame, hu, if_false]
      intro x hx
      exact List.mem_cons_of_mem _ (ih next x hx)

theorem af_eq_no_cur {s : LegacyFrameAllocator}
    (hc : s.current_descriptor = none) :
    allocate_frame s = ((findFrame s.next_frame s.memory_map).result,
      { s with next_frame := (findFrame s.next_frame s.memory_map).next,
               current_descriptor := (findFrame s.next_frame s.memory_map).current,
               memory_map := (findFrame s.next_frame s.memory_map).remaining }) := by
  unfold allocate_frame
  simp only [hc]

theorem af_eq_cur_hit {s : LegacyFrameAllocator} {d : MemDesc} {f n : Nat}
    (hc : s.current_descriptor = some d)
    (hafd : allocate_frame_from_descriptor s.next_frame d = (some f, n)) :
    allocate_frame s = (some f, { s with next_frame := n }) := by
  unfold allocate_frame
  simp only [hc, hafd]

theorem af_eq_cur_miss {s : LegacyFrameAllocator} {d : MemDesc} {n : Nat}
    (hc : s.current_descriptor = some d)
    (hafd : allocate_frame_from_descriptor s.next_frame d = (none, n)) :
    allocate_frame s = ((findFrame n s.memory_map).result,
      { s with next_frame := (findFrame n s.memory_map).next,
               current_descriptor := (findFrame n s.memory_map).current,
               memory_map := (findFrame n s.memory_map).remaining }) := by
  unfold allocate_frame
  simp only [hc, hafd]

theorem af_original (s : LegacyFrameAllocator) :
    ((allocate_frame s).2).original = s.original := by
  cases hc : s.current_descriptor with
  | none => rw [af_eq_no_cur hc]
  | some d =>
    rcases hafd : allocate_frame_from_descriptor s.next_frame d with ⟨r, n⟩
    cases r with
    | some f => rw [af_eq_cur_hit hc hafd]
    | none => rw [af_eq_cur_miss hc hafd]

theorem af_next_le (s : LegacyFrameAllocator) :
    s.next_frame ≤ ((allocate_frame s).2).next_frame := by
  cases hc : s.current_descriptor with
  | none =>
    rw [af_eq_no_cur hc]
    exact ff_next_le s.next_frame s.memory_map
  | some d =>
    rcases hafd : allocate_frame_from_descriptor s.next_frame d with ⟨r, n⟩
    have hle := afd_next_le s.next_frame d
    rw [hafd] at hle
    cases r with
    | some f =>
      rw [af_eq_cur_hit hc hafd]
      exact hle
    | none =>
      rw [af_eq_cur_miss hc hafd]
      exact le_trans hle (ff_next_le n s.memory_map)

theorem af_some {s : LegacyFrameAllocator} {f : Nat}
    (h : (allocate_frame s).1 = some f) :
    s.next_frame ≤ f ∧ ((allocate_frame s).2).next_frame = f + 1 := by
  cases hc : s.current_descriptor with
  | none =>
    rw [af_eq_no_cur hc] at h ⊢
    have hs := ff_some h
    exact ⟨hs.1, hs.2.1⟩
  | some d =>
    rcases hafd : allocate_frame_from_descriptor s.next_frame d with ⟨r, n⟩
    cases r with
    | some g =>
      rw [af_eq_cur_hit hc hafd] at h ⊢
      have hgf : g = f := by injection h
      subst hgf
      have hs := afd_some (show (allocate_frame_from_descriptor s.next_frame d).1 = some g by rw [hafd])
      rw [hafd] at hs
      exact ⟨hs.1, hs.2.1⟩
    | none =>
      rw [af_eq_cur_miss hc hafd] at h ⊢
      have hle := afd_next_le s.next_frame d
      rw [hafd] at hle
      have hs := ff_some h
      exact ⟨le_trans hle hs.1, hs.2.1⟩

theorem af_none {s : LegacyFrameAllocator}
    (h : (allocate_frame s).1 = none) :
    ((allocate_frame s).2).current_descriptor = none ∧
      ((allocate_frame s).2).memory_map = [] := by
  cases hc : s.current_descriptor with
  | none =>
    rw [af_eq_no_cur hc] at h ⊢
    exact ff_none h
  | some d =>
    rcases hafd : allocate_frame_from_descriptor s.next_frame d with ⟨r, n⟩
    cases r with
    | some g => rw [af_eq_cur_hit hc hafd] at h; cases h
    | none =>
      rw [af_eq_cur_miss hc hafd] at h ⊢
      exact ff_none h

theorem af_exhausted_fix {s : LegacyFrameAllocator}
    (hc : s.current_descriptor = none) (hm : s.memory_map = []) :
    allocate_frame s = (none, s) := by
  rw [af_eq_no_cur hc, hm]
  show (none, { s with next_frame := s.next_frame, current_descriptor := none,
                       memory_map := [] }) = (none, s)
  rw [← hc, ← hm]

theorem allocSteps_exhausted {s : LegacyFrameAllocator}
    (hc : s.current_descriptor = none) (hm : s.memory_map = []) (n : Nat) :
    allocSteps n s = s := by
  induction n with
  | zero => rfl
  | succ k ih =>
    show allocSteps k (allocate_frame s).2 = s
    rw [af_exhausted_fix hc hm]
    exact ih

theorem allocSteps_original (n : Nat) (s : LegacyFrameAllocator) :
    (allocSteps n s).original = s.original := by
  induction n generalizing s with
  | zero => rfl
  | succ k ih =>
    show (allocSteps k (allocate_frame s).2).original = s.original
    rw [ih, af_original]

theorem allocSteps_next_le (n : Nat) (s : LegacyFrameAllocator) :
    s.next_frame ≤ (allocSteps n s).next_frame := by
  induction n generalizing s with
  | zero => exact le_refl _
  | succ k ih =>
    exact le_trans (af_next_le s) (ih (allocate_frame s).2)

/-- The cached current descriptor and the live iterator only ever hold
descriptors of the original sequence, and the cached one is usable. -/
def SrcInv (ds : List MemDesc) (s : LegacyFrameAllocator) : Prop :=
  (∀ d, s.current_descriptor = some d → d ∈ ds ∧ d.usable = true) ∧
  (∀ d, d ∈ s.memory_map → d ∈ ds)

theorem inv_new_starting_at (f : Nat) (ds : List MemDesc) :
    SrcInv ds (new_starting_at f ds) := by
  constructor
  · intro d h
    cases h
  · intro d h
    exact h

theorem ff_current {next : Nat} {l : List MemDesc} {d : MemDesc}
    (h : (findFrame next l).current = some d) : d ∈ l ∧ d.usable = true := by
  cases hr : (findFrame next l).result with
  | none =>
    have hn := ff_none hr
    rw [hn.1] at h
    cases h
  | some f =>
    obtain ⟨_, _, d', hd', hu', hc', _⟩ := ff_some hr
    rw [hc'] at h
    injection h with h
    exact h ▸ ⟨hd', hu'⟩

theorem inv_step {ds : List MemDesc} {s : LegacyFrameAllocator}
    (hinv : SrcInv ds s) : SrcInv ds (allocate_frame s).2 := by
  cases hc : s.current_descriptor with
  | none =>
    rw [af_eq_no_cur hc]
    refine ⟨fun d h => ?_, fun d h => ?_⟩
    · have := ff_current h
      exact ⟨hinv.2 d (this.1), this.2⟩
    · exact hinv.2 d (ff_remaining_subset _ _ d h)
  | some d0 =>
    rcases hafd : allocate_frame_from_descriptor s.next_frame d0 with ⟨r, n⟩
    cases r with
    | some f =>
      rw [af_eq_cur_hit hc hafd]
      exact ⟨fun d h => hinv.1 d h, hinv.2⟩
    | none =>
      rw [af_eq_cur_miss hc hafd]
      refine ⟨fun d h => ?_, fun d h => ?_⟩
      · have := ff_current h
        exact ⟨hinv.2 d (this.1), this.2⟩
      · exact hinv.2 d (ff_remaining_subset _ _ d h)

theorem allocSteps_inv {ds : List MemDesc} (n : Nat) {s : LegacyFrameAllocator}
    (hinv : SrcInv ds s) : SrcInv ds (allocSteps n s) := by
  induction n generalizing s with
  | zero => exact hinv
  | succ k ih => exact ih (inv_step hinv)

theorem af_some_src {ds : List MemDesc} {s : LegacyFrameAllocator} {f : Nat}
    (hinv : SrcInv ds s) (h : (allocate_frame s).1 = some f) :
    ∃ d, d ∈ ds ∧ d.usable = true ∧ containingFrame d.start ≤ f ∧
      f < containingFrame (d.start + d.len - 1) := by
  cases hc : s.current_descriptor with
  | none =>
    rw [af_eq_no_cur hc] at h
    obtain ⟨_, _, d, hd, hu, _, hb1, hb2⟩ := ff_some h
    exact ⟨d, hinv.2 d hd, hu, hb1, hb2⟩
  | some d0 =>
    rcases hafd : allocate_frame_from_descriptor s.next_frame d0 with ⟨r, n⟩
    cases r with
    | some g =>
      rw [af_eq_cur_hit hc hafd] at h
      have hgf : g = f := by injection h
      subst hgf
      have hs := afd_some (show (allocate_frame_from_descriptor s.next_frame d0).1 = some g by rw [hafd])
      have hd0 := hinv.1 d0 hc
      exact ⟨d0, hd0.1, hd0.2, hs.2.2.1, hs.2.2.2⟩
    | none =>
      rw [af_eq_cur_miss hc hafd] at h
      obtain ⟨_, _, d, hd, hu, _, hb1, hb2⟩ := ff_some h
      exact ⟨d, hinv.2 d hd, hu, hb1, hb2⟩

theorem coveredBy_append {l1 l2 : List MemoryRegion} {b : Nat} :
    coveredBy (l1 ++ l2) b ↔ coveredBy l1 b ∨ coveredBy l2 b := by
  simp [coveredBy, List.mem_append, or_and_right, exists_or]

theorem coveredByDescs_cons {d : MemDesc} {ds : List MemDesc} {b : Nat} :
    coveredByDescs (d :: ds) b ↔ inDesc d b ∨ coveredByDescs ds b := by
  simp [coveredByDescs, List.mem_cons, or_and_right, exists_or]

theorem coveredBy_singleton {r : MemoryRegion} {b : Nat} :
    coveredBy [r] b ↔ inRegion r b := by
  simp [coveredBy]

theorem rfd_covered (nf : Nat) (d : MemDesc) (b : Nat) :
    coveredBy (regionsForDescriptor nf d) b ↔ inDesc d b := by
  unfold regionsForDescriptor
  split_ifs with h1 h2 h3
  · rw [coveredBy_singleton]
    exact Iff.rfl
  · rw [coveredBy_singleton]
    exact Iff.rfl
  · rw [show ([⟨d.start, nf, MemoryRegionKind.Bootloader⟩,
        ⟨nf, d.start + d.len, MemoryRegionKind.Usable⟩] : List MemoryRegion) =
        [⟨d.start, nf, MemoryRegionKind.Bootloader⟩] ++
        [⟨nf, d.start + d.len, MemoryRegionKind.Usable⟩] from rfl,
       coveredBy_append, coveredBy_singleton, coveredBy_singleton]
    show (d.start ≤ b ∧ b < nf) ∨ (nf ≤ b ∧ b < d.start + d.len) ↔
      d.start ≤ b ∧ b < d.start + d.len
    omega
  · rw [coveredBy_singleton]
    exact Iff.rfl

theorem regionsOf_covered (nf : Nat) (ds : List MemDesc) (b : Nat) :
    coveredBy (regionsOf nf ds) b ↔ coveredByDescs ds b := by
  induction ds with
  | nil => simp [regionsOf, coveredBy, coveredByDescs]
  | cons d ds ih =>
    show coveredBy (regionsForDescriptor nf d ++ regionsOf nf ds) b ↔ _
    rw [coveredBy_append, rfd_covered, coveredByDescs_cons, ih]

theorem rfd_mem_bounds {nf : Nat} {d : MemDesc} {r : MemoryRegion}
    (h : r ∈ regionsForDescriptor nf d) :
    d.start ≤ r.start ∧ r.stop ≤ d.start + d.len := by
  unfold regionsForDescriptor at h
  split_ifs at h with h1 h2 h3
  · simp only [List.mem_singleton] at h
    subst h
    exact ⟨le_refl _, le_refl _⟩
  · simp only [List.mem_singleton] at h
    subst h
    exact ⟨le_refl _, le_refl _⟩
  · simp only [List.mem_cons, List.mem_singleton, List.not_mem_nil, or_false] at h
    rcases h with rfl | rfl
    · exact ⟨le_refl _, show nf ≤ d.start + d.len by omega⟩
    · exact ⟨show d.start ≤ nf by omega, le_refl _⟩
  · simp only [List.mem_singleton] at h
    subst h
    exact ⟨le_refl _, le_refl _⟩

theorem rfd_pairwise (nf : Nat) (d : MemDesc) :
    List.Pairwise regDisj (regionsForDescriptor nf d) := by
  unfold regionsForDescriptor
  split_ifs with h1 h2 h3
  · exact List.pairwise_singleton _ _
  · exact List.pairwise_singleton _ _
  · refine List.Pairwise.cons ?_ (List.pairwise_singleton _ _)
    intro r hr
    simp only [List.mem_singleton] at hr
    subst hr
    show min nf (d.start + d.len) ≤ max d.start nf
    omega
  · exact List.pairwise_singleton _ _

theorem regionsOf_mem {nf : Nat} {ds : List MemDesc} {r : MemoryRegion}
    (h : r ∈ regionsOf nf ds) :
    ∃ d, d ∈ ds ∧ d.start ≤ r.start ∧ r.stop ≤ d.start + d.len := by
  induction ds with
  | nil => cases h
  | cons d ds ih =>
    rw [show regionsOf nf (d :: ds) = regionsForDescriptor nf d ++ regionsOf nf ds
        from rfl, List.mem_append] at h
    cases h with
    | inl h =>
      exact ⟨d, List.mem_cons_self d ds, rfd_mem_bounds h⟩
    | inr h =>
      obtain ⟨d', hd', hb⟩ := ih h
      exact ⟨d', List.mem_cons_of_mem d hd', hb⟩

theorem regionsOf_pairwise (nf : Nat) {ds : List MemDesc}
    (hds : List.Pairwise descDisj ds) :
    List.Pairwise regDisj (regionsOf nf ds) := by
  induction ds with
  | nil => exact List.Pairwise.nil
  | cons d ds ih =>
    rw [show regionsOf nf (d :: ds) = regionsForDescriptor nf d ++ regionsOf nf ds
        from rfl, List.pairwise_append]
    rw [List.pairwise_cons] at hds
    refine ⟨rfd_pairwise nf d, ih hds.2, fun r hr r' hr' => ?_⟩
    have hb := rfd_mem_bounds hr
    obtain ⟨d', hd', hb'⟩ := regionsOf_mem hr'
    have hdisj : descDisj d d' := hds.1 d' hd'
    unfold descDisj at hdisj
    unfold regDisj
    omega

theorem rfd_length (nf : Nat) (d : MemDesc) :
    (regionsForDescriptor nf d).length ≤ 2 := by
  unfold regionsForDescriptor
  split_ifs <;> simp [List.length]

theorem regionsOf_length (nf : Nat) (ds : List MemDesc) :
    (regionsOf nf ds).length ≤ 2 * ds.length := by
  induction ds with
  | nil => simp [regionsOf]
  | cons d ds ih =>
    show (regionsForDescriptor nf d ++ regionsOf nf ds).length ≤ _
    rw [List.length_append]
    have := rfd_length nf d
    simp only [List.length_cons]
    omega

theorem regDisj_iff (r1 r2 : MemoryRegion) :
    regDisj r1 r2 ↔ ∀ b, ¬(inRegion r1 b ∧ inRegion r2 b) := by
  constructor
  · intro h b hb
    unfold regDisj at h
    unfold inRegion at hb
    omega
  · intro h
    by_contra hlt
    unfold regDisj at hlt
    exact h (max r1.start r2.start)
      (by unfold inRegion; omega)

theorem addRegions_spec (cap : Nat) (rs : List MemoryRegion)
    (buf : List MemoryRegion) (h : buf.length ≤ cap) :
    addRegions cap rs buf =
      if buf.length + rs.length ≤ cap then some (buf ++ rs) else none := by
  induction rs generalizing buf with
  | nil =>
    rw [show addRegions cap [] buf = some buf from rfl,
        if_pos (by simpa using h)]
    simp
  | cons r rs ih =>
    by_cases hlt : buf.length < cap
    · have ha : add_region r buf cap = some (buf ++ [r]) := by
        simp [add_region, hlt]
      have hstep : addRegions cap (r :: rs) buf = addRegions cap rs (buf ++ [r]) := by
        simp only [addRegions, ha]
      have hbl : (buf ++ [r]).length ≤ cap := by
        simp only [List.length_append, List.length_singleton]
        omega
      rw [hstep, ih (buf ++ [r]) hbl]
      by_cases hc2 : buf.length + (r :: rs).length ≤ cap
      · have hc2e : buf.length + rs.length + 1 ≤ cap := by
          have h2 := hc2
          simp only [List.length_cons] at h2
          omega
        have hcl : (buf ++ [r]).length + rs.length ≤ cap := by
          simp only [List.length_append, List.length_singleton]
          omega
        rw [if_pos hcl, if_pos hc2]
        simp
      · have hc2e : ¬(buf.length + rs.length + 1 ≤ cap) := by
          intro hx
          apply hc2
          simp only [List.length_cons]
          omega
        have hcl : ¬((buf ++ [r]).length + rs.length ≤ cap) := by
          simp only [List.length_append, List.length_singleton]
          omega
        rw [if_neg hcl, if_neg hc2]
    · have ha : add_region r buf cap = none := by
        simp [add_region, hlt]
      have hstep : addRegions cap (r :: rs) buf = none := by
        simp only [addRegions, ha]
      have hcl : ¬(buf.length + (r :: rs).length ≤ cap) := by
        simp only [List.length_cons]
        omega
      rw [hstep, if_neg hcl]

theorem constructGo_spec (nf cap : Nat) (ds : List MemDesc)
    (buf : List MemoryRegion) (h : buf.length ≤ cap) :
    constructGo nf cap ds buf =
      if buf.length + (regionsOf nf ds).length ≤ cap
      then some (buf ++ regionsOf nf ds) else none := by
  induction ds generalizing buf with
  | nil =>
    rw [show constructGo nf cap [] buf = some buf from rfl,
        show regionsOf nf [] = [] from rfl,
        if_pos (by simpa using h)]
    simp
  | cons d ds ih =>
    have hre : regionsOf nf (d :: ds) = regionsForDescriptor nf d ++ regionsOf nf ds :=
      rfl
    by_cases h1 : buf.length + (regionsForDescriptor nf d).length ≤ cap
    · have hstep : constructGo nf cap (d :: ds) buf =
          constructGo nf cap ds (buf ++ regionsForDescriptor nf d) := by
        simp only [constructGo]
        rw [addRegions_spec cap _ buf h, if_pos h1]
      have hbl : (buf ++ regionsForDescriptor nf d).length ≤ cap := by
        simp only [List.length_append]
        omega
      rw [hstep, ih (buf ++ regionsForDescriptor nf d) hbl]
      by_cases hc2 : buf.length + (regionsOf nf (d :: ds)).length ≤ cap
      · have hc2e : buf.length + ((regionsForDescriptor nf d).length +
            (regionsOf nf ds).length) ≤ cap := by
          have := hc2
          rw [hre, List.length_append] at this
          exact this
        have hcl : (buf ++ regionsForDescriptor nf d).length +
            (regionsOf nf ds).length ≤ cap := by
          simp only [List.length_append]
          omega
        rw [if_pos hcl, if_pos hc2, hre]
        simp [List.append_assoc]
      · have hc2e : ¬(buf.length + ((regionsForDescriptor nf d).length +
            (regionsOf nf ds).length) ≤ cap) := by
          intro hx
          apply hc2
          rw [hre, List.length_append]
          exact hx
        have hcl : ¬((buf ++ regionsForDescriptor nf d).length +
            (regionsOf nf ds).length ≤ cap) := by
          simp only [List.length_append]
          omega
        rw [if_neg hcl, if_neg hc2]
    · have hstep : constructGo nf cap (d :: ds) buf = none := by
        simp only [constructGo]
        rw [addRegions_spec cap _ buf h, if_neg h1]
      have hcl : ¬(buf.length + (regionsOf nf (d :: ds)).length ≤ cap) := by
        rw [hre, List.length_append]
        omega
      rw [hstep, if_neg hcl]

theorem construct_memory_map_spec (s : LegacyFrameAllocator) (cap : Nat) :
    construct_memory_map s cap =
      if (regionsOf (frameStartAddr s.next_frame) s.original).length ≤ cap
      then some (regionsOf (frameStartAddr s.next_frame) s.original) else none := by
  unfold construct_memory_map
  rw [constructGo_spec _ _ _ [] (by simp)]
  simp

theorem af_oneframe (s : LegacyFrameAllocator)
    (hc : s.current_descriptor = none)
    (hm : ∀ d' ∈ s.memory_map,
      containingFrame d'.start = containingFrame (d'.start + d'.len - 1)) :
    (allocate_frame s).1 = none := by
  cases hr : (allocate_frame s).1 with
  | none => rfl
  | some f =>
    exfalso
    rw [af_eq_no_cur hc] at hr
    obtain ⟨_, _, d', hd', _, _, hb1, hb2⟩ := ff_some hr
    have := hm d' hd'
    omega

theorem steps_oneframe (n : Nat) (s : LegacyFrameAllocator)
    (hc : s.current_descriptor = none)
    (hm : ∀ d' ∈ s.memory_map,
      containingFrame d'.start = containingFrame (d'.start + d'.len - 1)) :
    (allocSteps n s).current_descriptor = none ∧
    ∀ d' ∈ (allocSteps n s).memory_map,
      containingFrame d'.start = containingFrame (d'.start + d'.len - 1) := by
  induction n generalizing s with
  | zero => exact ⟨hc, hm⟩
  | succ k ih =>
    have hr : (allocate_frame s).1 = none := af_oneframe s hc hm
    have hn := af_none hr
    exact ih (allocate_frame s).2 hn.1 (by rw [hn.2]; intro d' hd'; cases hd')

/-- Claim C1, counterexample: with two overlapping (here identical)
unusable descriptors covering [0, 0x1000), construct_memory_map emits two
identical Reserved regions, so byte 0 is covered by two distinct emitted
regions — bytes ARE duplicated across emitted regions, refuting the
no-duplication/no-overlap part of the claim for arbitrary descriptor
sequences. -/
theorem c1_coverage_conservation_counterexample :
    regionsOf 4096 [⟨0, 4096, false⟩, ⟨0, 4096, false⟩] =
      [⟨0, 4096, MemoryRegionKind.Reserved⟩, ⟨0, 4096, MemoryRegionKind.Reserved⟩] ∧
    inRegion ⟨0, 4096, MemoryRegionKind.Reserved⟩ 0 ∧
    ¬ List.Pairwise regDisj (regionsOf 4096 [⟨0, 4096, false⟩, ⟨0, 4096, false⟩]) := by
  refine ⟨by decide, by decide, by decide⟩

/-- Claim C1 (amended): for every descriptor sequence the bytes covered
by the regions emitted by construct_memory_map are exactly the bytes
covered by the original descriptors (no byte dropped, no byte added);
regDisj characterizes byte-disjointness of two regions; and provided the
descriptors' byte ranges are pairwise disjoint, the emitted regions are
pairwise byte-disjoint (no byte duplicated, no overlaps). -/
theorem c1_coverage_conservation :
    (∀ nf ds b, coveredBy (regionsOf nf ds) b ↔ coveredByDescs ds b) ∧
    (∀ r1 r2, regDisj r1 r2 ↔ ∀ b, ¬(inRegion r1 b ∧ inRegion r2 b)) ∧
    (∀ nf ds, List.Pairwise descDisj ds → List.Pairwise regDisj (regionsOf nf ds)) :=
  ⟨regionsOf_covered, regDisj_iff, fun nf _ h => regionsOf_pairwise nf h⟩

/-- Witness: c1_coverage_conservation applied at one usable and one
reserved disjoint descriptor with cursor 0x3000, and at byte 0x1500. -/
theorem c1_coverage_conservation_witness :
    List.Pairwise descDisj [(⟨0x1000, 0x4000, true⟩ : MemDesc), ⟨0x6000, 0x1000, false⟩] ∧
    List.Pairwise regDisj
      (regionsOf 0x3000 [(⟨0x1000, 0x4000, true⟩ : MemDesc), ⟨0x6000, 0x1000, false⟩]) ∧
    (coveredBy (regionsOf 0x3000
        [(⟨0x1000, 0x4000, true⟩ : MemDesc), ⟨0x6000, 0x1000, false⟩]) 0x1500 ↔
      coveredByDescs [(⟨0x1000, 0x4000, true⟩ : MemDesc), ⟨0x6000, 0x1000, false⟩] 0x1500) :=
  ⟨by decide,
   c1_coverage_conservation.2.2 0x3000
     [⟨0x1000, 0x4000, true⟩, ⟨0x6000, 0x1000, false⟩] (by decide),
   c1_coverage_conservation.1 0x3000
     [⟨0x1000, 0x4000, true⟩, ⟨0x6000, 0x1000, false⟩] 0x1500⟩

/-- Claim C2: the cursor next_frame never decreases across an
allocate_frame call, and any two successful allocations (the second
after any number of intervening calls) return strictly increasing
frames. -/
theorem c2_monotonic_frame_order :
    (∀ s : LegacyFrameAllocator, s.next_frame ≤ ((allocate_frame s).2).next_frame) ∧
    (∀ (s : LegacyFrameAllocator) (n f g : Nat),
      (allocate_frame s).1 = some f →
      (allocate_frame (allocSteps n (allocate_frame s).2)).1 = some g → f < g) := by
  refine ⟨af_next_le, fun s n f g hf hg => ?_⟩
  have h1 := af_some hf
  have h2 := af_some hg
  have h3 := allocSteps_next_le n (allocate_frame s).2
  omega

/-- Witness: two consecutive successful allocations from one usable
descriptor return frames 1 then 2. -/
theorem c2_monotonic_frame_order_witness :
    (allocate_frame (new [⟨0x1000, 0x4000, true⟩])).1 = some 1 ∧
    (allocate_frame (allocSteps 0 (allocate_frame (new [⟨0x1000, 0x4000, true⟩])).2)).1 =
      some 2 ∧ 1 < 2 :=
  ⟨by decide, by decide,
   c2_monotonic_frame_order.2 (new [⟨0x1000, 0x4000, true⟩]) 0 1 2 (by decide) (by decide)⟩

/-- Claim C3, counterexample: with the single usable descriptor
[0x1000, 0x5000) and the default starting frame at 0x1000, the fourth
allocate_frame call returns none (only 3 calls succeed, at 0x1000,
0x2000, 0x3000), and the final map after those allocations has two
regions, not one full-descriptor Bootloader region: the condition
next_frame < end_frame in allocate_frame_from_descriptor never hands out
the frame containing the descriptor's last byte. -/
theorem c3_full_consumption_counterexample :
    (allocResults 4 (new [⟨0x1000, 0x4000, true⟩])).map (Option.map frameStartAddr) =
      [some 0x1000, some 0x2000, some 0x3000, none] ∧
    construct_memory_map (allocSteps 4 (new [⟨0x1000, 0x4000, true⟩])) 8 =
      some [⟨0x1000, 0x4000, MemoryRegionKind.Bootloader⟩,
            ⟨0x4000, 0x5000, MemoryRegionKind.Usable⟩] := by
  refine ⟨by decide, by decide⟩

/-- Claim C3 (amended): with a single usable descriptor covering
[0x1000, 0x5000) and the starting frame at 0x1000, exactly 3
allocate_frame calls succeed (returning 0x1000, 0x2000, 0x3000 — the
frame containing the descriptor's last byte is never allocated), and
construct_memory_map afterwards emits exactly two regions: Bootloader
[0x1000, 0x4000) followed by Usable [0x4000, 0x5000). -/
theorem c3_full_consumption :
    (allocResults 4 (new [⟨0x1000, 0x4000, true⟩])).map (Option.map frameStartAddr) =
      [some 0x1000, some 0x2000, some 0x3000, none] ∧
    construct_memory_map (allocSteps 3 (new [⟨0x1000, 0x4000, true⟩])) 8 =
      some [⟨0x1000, 0x4000, MemoryRegionKind.Bootloader⟩,
            ⟨0x4000, 0x5000, MemoryRegionKind.Usable⟩] := by
  refine ⟨by decide, by decide⟩

/-- Claim C4: with a single usable descriptor covering [0x1000, 0x5000)
and the starting frame at 0x1000, the first 2 allocate_frame calls
succeed returning 0x1000 and 0x2000, and construct_memory_map then emits
exactly Bootloader [0x1000, 0x3000) followed by Usable [0x3000, 0x5000). -/
theorem c4_split_correctness :
    (allocResults 2 (new [⟨0x1000, 0x4000, true⟩])).map (Option.map frameStartAddr) =
      [some 0x1000, some 0x2000] ∧
    construct_memory_map (allocSteps 2 (new [⟨0x1000, 0x4000, true⟩])) 8 =
      some [⟨0x1000, 0x3000, MemoryRegionKind.Bootloader⟩,
            ⟨0x3000, 0x5000, MemoryRegionKind.Usable⟩] := by
  refine ⟨by decide, by decide⟩

/-- Claim C5: the default constructor starts at the frame containing
0x1000; the cursor of an allocator built by new_starting_at never drops
below the starting frame; and every successfully returned frame is at or
above the starting frame, even when a usable descriptor covers memory
below that bound. -/
theorem c5_lower_bound :
    (∀ ds, (new ds).next_frame = containingFrame 0x1000) ∧
    (∀ (f : Nat) (ds : List MemDesc) (n : Nat),
      f ≤ (allocSteps n (new_starting_at f ds)).next_frame) ∧
    (∀ (f : Nat) (ds : List MemDesc) (n g : Nat),
      (allocate_frame (allocSteps n (new_starting_at f ds))).1 = some g → f ≤ g) := by
  refine ⟨fun ds => rfl, fun f ds n => allocSteps_next_le n (new_starting_at f ds),
    fun f ds n g hg => ?_⟩
  exact le_trans (allocSteps_next_le n (new_starting_at f ds)) (af_some hg).1

/-- Witness: a usable descriptor starting at address 0, below the
starting frame 1, still yields frame 1 as first allocation. -/
theorem c5_lower_bound_witness :
    (allocate_frame (allocSteps 0 (new_starting_at 1 [⟨0, 0x3000, true⟩]))).1 = some 1 ∧
    1 ≤ 1 :=
  ⟨by decide, c5_lower_bound.2.2 1 [⟨0, 0x3000, true⟩] 0 1 (by decide)⟩

/-- Claim C6: once allocate_frame has returned none, every subsequent
call (after any number of further calls) also returns none. -/
theorem c6_exhaustion :
    ∀ (s : LegacyFrameAllocator) (n : Nat),
      (allocate_frame s).1 = none →
      (allocate_frame (allocSteps n (allocate_frame s).2)).1 = none := by
  intro s n h
  have hn := af_none h
  rw [allocSteps_exhausted hn.1 hn.2 n, af_exhausted_fix hn.1 hn.2]

/-- Witness: an allocator over a single one-frame descriptor returns
none immediately and keeps returning none two calls later. -/
theorem c6_exhaustion_witness :
    (allocate_frame (new [⟨0x1000, 0x1000, true⟩])).1 = none ∧
    (allocate_frame (allocSteps 2 (allocate_frame (new [⟨0x1000, 0x1000, true⟩])).2)).1 =
      none :=
  ⟨by decide, c6_exhaustion (new [⟨0x1000, 0x1000, true⟩]) 2 (by decide)⟩

/-- Claim C7: construct_memory_map never returns more regions than the
buffer capacity — a successful run returns exactly the full region list,
within capacity; and whenever the region list exceeds the capacity the
call takes the fatal path (modelled none, the panic), never a truncated
buffer. -/
theorem c7_capacity_fault :
    ∀ (s : LegacyFrameAllocator) (cap : Nat) (out : List MemoryRegion),
      (construct_memory_map s cap = some out →
        out.length ≤ cap ∧ out = regionsOf (frameStartAddr s.next_frame) s.original) ∧
      (cap < (regionsOf (frameStartAddr s.next_frame) s.original).length →
        construct_memory_map s cap = none) := by
  intro s cap out
  constructor
  · intro hout
    rw [construct_memory_map_spec] at hout
    by_cases hP : (regionsOf (frameStartAddr s.next_frame) s.original).length ≤ cap
    · rw [if_pos hP] at hout
      injection hout with hout
      subst hout
      exact ⟨hP, rfl⟩
    · rw [if_neg hP] at hout
      cases hout
  · intro hlt
    rw [construct_memory_map_spec, if_neg (by omega)]

/-- Witness: the two-region split scenario with a one-slot buffer takes
the fatal path; with capacity 8 it succeeds within capacity. -/
theorem c7_capacity_fault_witness :
    (1 < (regionsOf
        (frameStartAddr (allocSteps 2 (new [⟨0x1000, 0x4000, true⟩])).next_frame)
        (allocSteps 2 (new [⟨0x1000, 0x4000, true⟩])).original).length) ∧
    construct_memory_map (allocSteps 2 (new [⟨0x1000, 0x4000, true⟩])) 1 = none :=
  ⟨by decide,
   (c7_capacity_fault (allocSteps 2 (new [⟨0x1000, 0x4000, true⟩])) 1 []).2 (by decide)⟩

/-- Claim C8: the descriptor-scanning loop skips a not-usable descriptor
without touching the cursor or any other state, and every successfully
returned frame of an allocator built over a descriptor sequence is drawn
from a usable descriptor of that sequence (its frame lies between the
descriptor's start frame and strictly below its inclusive end frame). -/
theorem c8_unusable_skip :
    (∀ (next : Nat) (d : MemDesc) (rest : List MemDesc), d.usable = false →
      findFrame next (d :: rest) = findFrame next rest) ∧
    (∀ (f0 : Nat) (ds : List MemDesc) (n fr : Nat),
      (allocate_frame (allocSteps n (new_starting_at f0 ds))).1 = some fr →
      ∃ d, d ∈ ds ∧ d.usable = true ∧ containingFrame d.start ≤ fr ∧
        fr < containingFrame (d.start + d.len - 1)) := by
  refine ⟨fun next d rest h => ff_skip next rest h, fun f0 ds n fr h => ?_⟩
  exact af_some_src (allocSteps_inv n (inv_new_starting_at f0 ds)) h

/-- Witness: with a not-usable descriptor first, the loop skips it, and
the first returned frame comes from the usable second descriptor. -/
theorem c8_unusable_skip_witness :
    findFrame 1 [⟨0, 0x1000, false⟩, ⟨0x1000, 0x4000, true⟩] =
      findFrame 1 [⟨0x1000, 0x4000, true⟩] ∧
    (∃ d, d ∈ ([⟨0, 0x1000, false⟩, ⟨0x1000, 0x4000, true⟩] : List MemDesc) ∧
      d.usable = true ∧ containingFrame d.start ≤ 1 ∧
      1 < containingFrame (d.start + d.len - 1)) :=
  ⟨c8_unusable_skip.1 1 ⟨0, 0x1000, false⟩ [⟨0x1000, 0x4000, true⟩] (by decide),
   c8_unusable_skip.2 1 [⟨0, 0x1000, false⟩, ⟨0x1000, 0x4000, true⟩] 0 1 (by decide)⟩

/-- Claim C9: len always returns the number of descriptors of the
original sequence (across any number of allocations), and the region
list construct_memory_map produces has at most twice that many entries. -/
theorem c9_region_count_bound :
    (∀ (f0 : Nat) (ds : List MemDesc) (n : Nat),
      (allocSteps n (new_starting_at f0 ds)).len = ds.length) ∧
    (∀ (nf : Nat) (ds : List MemDesc),
      (regionsOf nf ds).length ≤ 2 * ds.length) := by
  refine ⟨fun f0 ds n => ?_, regionsOf_length⟩
  unfold LegacyFrameAllocator.len
  rw [allocSteps_original]
  rfl

/-- Claim C10: a frame returned by allocate_frame_from_descriptor is
always strictly below the descriptor's inclusive end frame (the frame
containing the last byte is never returned), and an allocator over a
single usable descriptor spanning exactly one frame returns none on
every call. -/
theorem c10_end_frame_excluded :
    (∀ (next : Nat) (d : MemDesc) (f : Nat),
      (allocate_frame_from_descriptor next d).1 = some f →
      f < containingFrame (d.start + d.len - 1)) ∧
    (∀ (d : MemDesc) (f0 n : Nat), d.usable = true → 0 < d.len →
      containingFrame d.start = containingFrame (d.start + d.len - 1) →
      (allocate_frame (allocSteps n (new_starting_at f0 [d]))).1 = none) := by
  refine ⟨fun next d f h => (afd_some h).2.2.2, fun d f0 n _ _ hone => ?_⟩
  have hstep := steps_oneframe n (new_starting_at f0 [d]) rfl
    (by intro d' hd'
        have he : d' = d := List.mem_singleton.mp hd'
        subst he
        exact hone)
  exact af_oneframe _ hstep.1 hstep.2

/-- Witness: frame 1 drawn from [0x1000, 0x5000) is strictly below end
frame 4, and the one-frame descriptor [0x2000, 0x3000) never yields a
frame even at the third call. -/
theorem c10_end_frame_excluded_witness :
    (1 < containingFrame (0x1000 + 0x4000 - 1)) ∧
    (allocate_frame (allocSteps 2 (new_starting_at 1 [⟨0x2000, 0x1000, true⟩]))).1 =
      none :=
  ⟨c10_end_frame_excluded.1 1 ⟨0x1000, 0x4000, true⟩ 1 (by decide),
   c10_end_frame_excluded.2 ⟨0x2000, 0x1000, true⟩ 1 2 (by decide) (by decide) (by decide)⟩

end Bootloader
